import Mathlib

/-!
# Verification of the socket_toolbox message codec and send path

Shallow embedding of `src/msg.rs` (the self-describing message format engine:
schema validation, encode, decode) and the `send_msg` logic of `src/socket.rs`.

Conventions of the embedding:
* Rust `u64` values are `Nat` (reduced mod `2 ^ 64` where the code truncates),
  `i64` values are `Int`, `usize` is `Nat` with `USIZE_MAX = 2 ^ 64 - 1`,
  byte buffers are `List Nat` of bytes.
* A Rust `String` is its UTF-8 byte sequence; the validity guaranteed by the
  Rust `String` type is carried as an explicit `isValidUtf8` side condition.
* A fallible Rust function that can also `panic!` is embedded with an explicit
  `crash` result constructor; `Result<T, Error>` becomes `RResult T`.
-/

set_option autoImplicit false

namespace SocketToolbox

/-- `usize::MAX` on the 64-bit targets the crate builds for. -/
def USIZE_MAX : Nat := 2 ^ 64 - 1

/-- `ItemValue` from `src/msg.rs`: the decoded value of one field. -/
inductive ItemValue where
  | len (v : Nat)
  | uint (v : Nat)
  | int (v : Int)
  | string (s : List Nat)
  | bytes (b : List Nat)
  deriving DecidableEq, Repr

/-- `Message` from `src/msg.rs`: an ordered sequence of values. -/
structure Message where
  values : List ItemValue
  deriving DecidableEq, Repr

/-- `ItemFormat` from `src/msg.rs`: the format descriptor of one field. -/
inductive ItemFormat where
  | len (l : Nat)
  | uint (l : Nat)
  | int (l : Nat)
  | fixedString (l : Nat)
  | varString (lenIdx : Nat)
  | fixedBytes (l : Nat)
  | varBytes (lenIdx : Nat)
  deriving DecidableEq, Repr

/-- `MessageFormat` from `src/msg.rs`: the ordered schema. -/
structure MessageFormat where
  itemFmts : List ItemFormat
  deriving DecidableEq, Repr

/-- The variants of `Error` in `src/error.rs` that the embedded core can
produce.  `msg.rs` maps `ReadError::Eof` to the end-of-data error variant
(spelled `EndOfStream` in `error.rs`); we call it `eof` here. -/
inductive Error where
  | messageFormatEmpty
  | noSuchClient (addr : String)
  | notConnected
  | lenIdxTooLarge (itemIdx lenIdx : Nat)
  | notALen (itemIdx lenIdx : Nat)
  | lenTooSmall (minLen itemIdx l : Nat)
  | lenTooLarge (maxLen itemIdx l : Nat)
  | valueLenOutOfBound (specifiedLen itemIdx itemLen : Nat)
  | eof
  | stopped
  | fromUtf8 (itemIdx : Nat)
  deriving DecidableEq, Repr

/-- The local `ReadError` enum of `src/msg.rs` (payloads dropped). -/
inductive ReadError where
  | io
  | eof
  | stopped
  | fromUtf8
  deriving DecidableEq, Repr

/-- The local `WriteError` enum of `src/msg.rs`. -/
inductive WriteError where
  | lenTooLarge (maxLen l : Nat)
  | valueLenOutOfBound (specifiedLen itemLen : Nat)
  deriving DecidableEq, Repr

/-- Result of a Rust function returning `Result<α, Error>` that may also
`panic!`; `crash` is the panic outcome. -/
inductive RResult (α : Type) where
  | crash
  | error (e : Error)
  | ok (a : α)
  deriving DecidableEq, Repr

/-- Result of `ItemFormat::read_from_buf` (which may panic inside the
`bytes` crate on an integer width above 8). -/
inductive ReadBufResult where
  | crash
  | error (e : ReadError)
  | ok (v : ItemValue) (rest : List Nat)
  deriving DecidableEq, Repr

/-- Result of `ItemFormat::write_to_buf`: the bytes the field wrote into its
zero-initialised slice, a `WriteError`, or a panic (`_ => panic!()` on a
format/value kind mismatch). -/
inductive WriteBufResult where
  | crash
  | error (e : WriteError)
  | ok (bs : List Nat)
  deriving DecidableEq, Repr

/-- `WriteError::global_error` from `src/msg.rs`. -/
def WriteError.global_error : WriteError → Nat → Error
  | .lenTooLarge maxLen l, itemIdx => .lenTooLarge maxLen itemIdx l
  | .valueLenOutOfBound specifiedLen itemLen, itemIdx =>
      .valueLenOutOfBound specifiedLen itemIdx itemLen

/-- Big-endian value of a byte list (`bytes::Buf::get_uint` semantics). -/
def beNat : List Nat → Nat
  | [] => 0
  | b :: rest => b * 256 ^ rest.length + beNat rest

/-- The low `l` bytes of `u` in big-endian order: the bytes
`&u.to_be_bytes()[8 - l..]` that `bytes::BufMut::put_uint(u, l)` appends. -/
def natToBeBytes : Nat → Nat → List Nat
  | 0, _ => []
  | l + 1, u => (u / 256 ^ l) % 256 :: natToBeBytes l u

/-- Sign extension of an `l`-byte unsigned big-endian value, as performed by
`bytes::Buf::get_int(l)`. -/
def signExtend (l : Nat) (u : Nat) : Int :=
  if 2 ^ (8 * l) ≤ 2 * u then (u : Int) - 2 ^ (8 * l) else (u : Int)

/-- UTF-8 validity of a byte sequence, as accepted by Rust
`String::from_utf8` (RFC 3629: no overlongs, no surrogates, max U+10FFFF). -/
def isValidUtf8 : List Nat → Bool
  | [] => true
  | b :: rest =>
    if b ≤ 0x7F then isValidUtf8 rest
    else if 0xC2 ≤ b ∧ b ≤ 0xDF then
      match rest with
      | c1 :: r => decide (0x80 ≤ c1 ∧ c1 ≤ 0xBF) && isValidUtf8 r
      | _ => false
    else if b = 0xE0 then
      match rest with
      | c1 :: c2 :: r =>
          decide (0xA0 ≤ c1 ∧ c1 ≤ 0xBF) && decide (0x80 ≤ c2 ∧ c2 ≤ 0xBF) &&
            isValidUtf8 r
      | _ => false
    else if (0xE1 ≤ b ∧ b ≤ 0xEC) ∨ b = 0xEE ∨ b = 0xEF then
      match rest with
      | c1 :: c2 :: r =>
          decide (0x80 ≤ c1 ∧ c1 ≤ 0xBF) && decide (0x80 ≤ c2 ∧ c2 ≤ 0xBF) &&
            isValidUtf8 r
      | _ => false
    else if b = 0xED then
      match rest with
      | c1 :: c2 :: r =>
          decide (0x80 ≤ c1 ∧ c1 ≤ 0x9F) && decide (0x80 ≤ c2 ∧ c2 ≤ 0xBF) &&
            isValidUtf8 r
      | _ => false
    else if b = 0xF0 then
      match rest with
      | c1 :: c2 :: c3 :: r =>
          decide (0x90 ≤ c1 ∧ c1 ≤ 0xBF) && decide (0x80 ≤ c2 ∧ c2 ≤ 0xBF) &&
            decide (0x80 ≤ c3 ∧ c3 ≤ 0xBF) && isValidUtf8 r
      | _ => false
    else if 0xF1 ≤ b ∧ b ≤ 0xF3 then
      match rest with
      | c1 :: c2 :: c3 :: r =>
          decide (0x80 ≤ c1 ∧ c1 ≤ 0xBF) && decide (0x80 ≤ c2 ∧ c2 ≤ 0xBF) &&
            decide (0x80 ≤ c3 ∧ c3 ≤ 0xBF) && isValidUtf8 r
      | _ => false
    else if b = 0xF4 then
      match rest with
      | c1 :: c2 :: c3 :: r =>
          decide (0x80 ≤ c1 ∧ c1 ≤ 0x8F) && decide (0x80 ≤ c2 ∧ c2 ≤ 0xBF) &&
            decide (0x80 ≤ c3 ∧ c3 ≤ 0xBF) && isValidUtf8 r
      | _ => false
    else false

/-- `ItemFormat::err` from `src/msg.rs`: per-item schema validation.
Returns `.ok ()` where the Rust code returns `None`.  The Rust index
expression `fmts[*len_idx]` panics when out of bounds, hence `.crash`. -/
def ItemFormat.err (f : ItemFormat) (idx : Nat) (fmts : List ItemFormat) :
    RResult Unit :=
  let maxLen : Nat :=
    match f with
    | .len _ | .uint _ | .int _ => 8
    | _ => USIZE_MAX
  match f with
  | .len l | .uint l | .int l | .fixedString l | .fixedBytes l =>
      if maxLen < l then .error (.lenTooLarge maxLen idx l) else .ok ()
  | .varString lenIdx | .varBytes lenIdx =>
      if idx < lenIdx then .error (.lenIdxTooLarge idx lenIdx)
      else
        match fmts.get? lenIdx with
        | some (.len _) => .ok ()
        | some _ => .error (.notALen idx lenIdx)
        | none => .crash

/-- `ItemFormat::len_by_idx` from `src/msg.rs`: panics (never errors) when
the value at `lenIdx` is absent or not a `Len`. -/
def ItemFormat.len_by_idx (lenIdx : Nat) (values : List ItemValue) :
    RResult Nat :=
  match values.get? lenIdx with
  | some (.len v) => .ok v
  | some _ => .crash
  | none => .crash

/-- `ItemFormat::len` from `src/msg.rs`: resolve the wire length of a field.
(Named `lenOf` here because the Rust method name collides with the
constructor `ItemFormat.len`.) -/
def ItemFormat.lenOf (f : ItemFormat) (idx : Nat) (fmts : List ItemFormat)
    (values : List ItemValue) : RResult Nat :=
  match f.err idx fmts with
  | .crash => .crash
  | .error e => .error e
  | .ok () =>
      match f with
      | .len l | .uint l | .int l | .fixedString l | .fixedBytes l => .ok l
      | .varString lenIdx | .varBytes lenIdx =>
          ItemFormat.len_by_idx lenIdx values

/-- `ItemFormat::read_from_buf` from `src/msg.rs`: read one field of `l`
bytes off the front of `buf`.  Integer reads delegate to
`bytes::Buf::get_uint`/`get_int`, which panic above 8 bytes. -/
def ItemFormat.read_from_buf (f : ItemFormat) (l : Nat) (buf : List Nat) :
    ReadBufResult :=
  if buf.length < l then .error .eof
  else
    match f with
    | .len _ =>
        if 8 < l then .crash else .ok (.len (beNat (buf.take l))) (buf.drop l)
    | .uint _ =>
        if 8 < l then .crash else .ok (.uint (beNat (buf.take l))) (buf.drop l)
    | .int _ =>
        if 8 < l then .crash
        else .ok (.int (signExtend l (beNat (buf.take l)))) (buf.drop l)
    | .fixedString _ | .varString _ =>
        if isValidUtf8 (buf.take l) then .ok (.string (buf.take l)) (buf.drop l)
        else .error .fromUtf8
    | .fixedBytes _ | .varBytes _ => .ok (.bytes (buf.take l)) (buf.drop l)

/-- The `max_len` bound computed at the top of `ItemFormat::write_to_buf`
(`size_of_val` of the 64-bit payload for integer values, `usize::MAX`
otherwise). -/
def writeMaxLen : ItemValue → Nat
  | .len _ | .uint _ | .int _ => 8
  | .string _ | .bytes _ => USIZE_MAX

/-- The `min_len` bound computed at the top of `ItemFormat::write_to_buf`
(the value's own byte length for string/bytes values, `0` otherwise). -/
def writeMinLen : ItemValue → Nat
  | .string s => s.length
  | .bytes b => b.length
  | _ => 0

/-- The write arm of `ItemFormat::write_to_buf` (the `match (self, value)`
after validation): the `l`-byte slice contents (the slice is zero-initialised
by `Vec::resize`, so short string/byte payloads leave trailing zeros).  A
format/value kind mismatch panics (`_ => panic!()`). -/
def writeArm (f : ItemFormat) (l : Nat) (v : ItemValue) : WriteBufResult :=
  match f, v with
  | .len _, .len x => .ok (natToBeBytes l x)
  | .uint _, .uint x => .ok (natToBeBytes l x)
  | .int _, .int x => .ok (natToBeBytes l (x % (2 ^ 64)).toNat)
  | .fixedString _, .string s => .ok (s ++ List.replicate (l - s.length) 0)
  | .varString _, .string s => .ok (s ++ List.replicate (l - s.length) 0)
  | .fixedBytes _, .bytes b => .ok (b ++ List.replicate (l - b.length) 0)
  | .varBytes _, .bytes b => .ok (b ++ List.replicate (l - b.length) 0)
  | _, _ => .crash

/-- `ItemFormat::write_to_buf` from `src/msg.rs`: validate the value against
the resolved length `l`, then write. -/
def ItemFormat.write_to_buf (f : ItemFormat) (l : Nat) (v : ItemValue) :
    WriteBufResult :=
  if writeMaxLen v < l then .error (.lenTooLarge (writeMaxLen v) l)
  else if l < writeMinLen v then .error (.valueLenOutOfBound l (writeMinLen v))
  else writeArm f l v

/-- The loop body of `MessageFormat::err`: validate items `idx, idx+1, ...`
of `fmts` (each item validated against the full list `fmts`). -/
def MessageFormat.errGo (fmts : List ItemFormat) :
    Nat → List ItemFormat → RResult Unit
  | _, [] => .ok ()
  | idx, f :: fs =>
      match f.err idx fmts with
      | .crash => .crash
      | .error e => .error e
      | .ok () => MessageFormat.errGo fmts (idx + 1) fs

/-- `MessageFormat::err` from `src/msg.rs`: whole-schema validation.
`.ok ()` corresponds to the Rust `None` (no error). -/
def MessageFormat.err (fmt : MessageFormat) : RResult Unit :=
  if fmt.itemFmts.isEmpty then .error .messageFormatEmpty
  else MessageFormat.errGo fmt.itemFmts 0 fmt.itemFmts

/-- The loop of `MessageFormat::decode`: walk the remaining formats `fs`
(item index `idx`), accumulating decoded values in `acc` and consuming
`buf`.  Length resolution sees the full format list and the values decoded
so far, exactly as in the source. -/
def MessageFormat.decodeGo (fmts : List ItemFormat) :
    Nat → List ItemFormat → List ItemValue → List Nat → RResult (List ItemValue)
  | _, [], acc, _ => .ok acc
  | idx, f :: fs, acc, buf =>
      match f.lenOf idx fmts acc with
      | .crash => .crash
      | .error e => .error e
      | .ok l =>
          match f.read_from_buf l buf with
          | .crash => .crash
          | .error .eof => .error .eof
          | .error .fromUtf8 => .error (.fromUtf8 idx)
          | .error .io => .crash
          | .error .stopped => .crash
          | .ok v rest => MessageFormat.decodeGo fmts (idx + 1) fs (acc ++ [v]) rest

/-- `MessageFormat::decode` from `src/msg.rs`. -/
def MessageFormat.decode (fmt : MessageFormat) (buf : List Nat) :
    RResult Message :=
  match MessageFormat.decodeGo fmt.itemFmts 0 fmt.itemFmts [] buf with
  | .crash => .crash
  | .error e => .error e
  | .ok values => .ok ⟨values⟩

/-- The loop of `MessageFormat::encode`: walk the zipped
(format, value) pairs (item index `idx`), appending each field's bytes.
Length resolution sees the full format list and the full value list, exactly
as in the source. -/
def MessageFormat.encodeGo (fmts : List ItemFormat) (values : List ItemValue) :
    Nat → List (ItemFormat × ItemValue) → RResult (List Nat)
  | _, [] => .ok []
  | idx, (f, v) :: rest =>
      match f.lenOf idx fmts values with
      | .crash => .crash
      | .error e => .error e
      | .ok l =>
          match f.write_to_buf l v with
          | .crash => .crash
          | .error we => .error (we.global_error idx)
          | .ok bs =>
              match MessageFormat.encodeGo fmts values (idx + 1) rest with
              | .crash => .crash
              | .error e => .error e
              | .ok tail => .ok (bs ++ tail)

/-- `MessageFormat::encode` from `src/msg.rs`. -/
def MessageFormat.encode (fmt : MessageFormat) (msg : Message) :
    RResult (List Nat) :=
  MessageFormat.encodeGo fmt.itemFmts msg.values 0
    (fmt.itemFmts.zip msg.values)

/-- The length constraint a value must satisfy for its field (§3/§4.3 of the
spec): the value's kind matches the field's kind; an integer value fits in
the field's width; a string/bytes value's length equals the fixed width, or
the referenced `Len` value for variable fields.  String values additionally
carry the UTF-8 validity that the Rust `String` type guarantees. -/
def lenConstraint (fullV : List ItemValue) : ItemFormat → ItemValue → Bool
  | .len l, .len x => decide (x < 256 ^ l)
  | .uint l, .uint x => decide (x < 256 ^ l)
  | .int l, .int x =>
      decide (-(2 ^ (8 * l) : Int) ≤ 2 * x ∧ 2 * x < 2 ^ (8 * l))
  | .fixedString l, .string s => decide (s.length = l) && isValidUtf8 s
  | .varString lenIdx, .string s =>
      (match fullV.get? lenIdx with
       | some (.len x) => decide (s.length = x)
       | _ => false) && isValidUtf8 s
  | .fixedBytes l, .bytes b => decide (b.length = l)
  | .varBytes lenIdx, .bytes b =>
      match fullV.get? lenIdx with
      | some (.len x) => decide (b.length = x)
      | _ => false
  | _, _ => false

/-- All values of a message satisfy their fields' length constraints,
positionally 1:1 (so in particular the two lists have equal length). -/
def constraintsOk (fullV : List ItemValue) :
    List ItemFormat → List ItemValue → Bool
  | [], [] => true
  | f :: fs, v :: vs => lenConstraint fullV f v && constraintsOk fullV fs vs
  | _, _ => false

/-- The per-field (resolved length, written bytes) pairs of an encode run:
`MessageFormat::encode` with the concatenation left out. -/
def MessageFormat.encodeChunks (fmts : List ItemFormat)
    (values : List ItemValue) :
    Nat → List (ItemFormat × ItemValue) → RResult (List (Nat × List Nat))
  | _, [] => .ok []
  | idx, (f, v) :: rest =>
      match f.lenOf idx fmts values with
      | .crash => .crash
      | .error e => .error e
      | .ok l =>
          match f.write_to_buf l v with
          | .crash => .crash
          | .error we => .error (we.global_error idx)
          | .ok bs =>
              match MessageFormat.encodeChunks fmts values (idx + 1) rest with
              | .crash => .crash
              | .error e => .error e
              | .ok tail => .ok ((l, bs) :: tail)

/-- The resolved field lengths of a format against a message's values: the
length-resolution calls a decode run makes, with the byte reads left out
(field `idx` resolves against the values before it, as in the source). -/
def MessageFormat.resolvedLens (fmts : List ItemFormat) :
    Nat → List ItemFormat → List ItemValue → List ItemValue → RResult (List Nat)
  | _, [], _, _ => .ok []
  | idx, f :: fs, acc, v :: vs =>
      match f.lenOf idx fmts acc with
      | .crash => .crash
      | .error e => .error e
      | .ok l =>
          match MessageFormat.resolvedLens fmts (idx + 1) fs (acc ++ [v]) vs with
          | .crash => .crash
          | .error e => .error e
          | .ok ls => .ok (l :: ls)
  | _, _ :: _, _, [] => .crash

/-- Push a message onto the queue registered under `addr` (the effect of
`tx.send(msg)` on the sender looked up in `tx_map`; addresses are unique map
keys). -/
def pushMsg (addr : String) (msg : Message) :
    List (String × List Message) → List (String × List Message)
  | [] => []
  | (a, q) :: rest =>
      if a = addr then (a, q ++ [msg]) :: rest
      else (a, q) :: pushMsg addr msg rest

/-- `Server::send_msg` from `src/socket.rs`, acting on the shared
address→queue map (`tx_map`).  Each `mpsc::Sender` is modelled by the queue
of messages pushed through it; a successful send returns the updated map. -/
def Server.send_msg (txMap : List (String × List Message)) (addr : String)
    (msg : Message) : RResult (List (String × List Message)) :=
  match txMap.lookup addr with
  | some _ => .ok (pushMsg addr msg txMap)
  | none => .error (.noSuchClient addr)

/-- `Client::send_msg` from `src/socket.rs`, acting on the single optional
sender (`tx`); a successful send returns the updated queue state. -/
def Client.send_msg (tx : Option (List Message)) (msg : Message) :
    RResult (Option (List Message)) :=
  match tx with
  | some q => .ok (some (q ++ [msg]))
  | none => .error .notConnected

/-- Whether a value is one of the integer kinds (`Len`/`Uint`/`Int`). -/
def isIntValue : ItemValue → Bool
  | .len _ | .uint _ | .int _ => true
  | .string _ | .bytes _ => false

/-- Whether a value's kind matches its field's format kind: exactly the
pairs that reach a write arm of `ItemFormat::write_to_buf` rather than the
`_ => panic!()` arm. -/
def kindMatches : ItemFormat → ItemValue → Bool
  | .len _, .len _ => true
  | .uint _, .uint _ => true
  | .int _, .int _ => true
  | .fixedString _, .string _ => true
  | .varString _, .string _ => true
  | .fixedBytes _, .bytes _ => true
  | .varBytes _, .bytes _ => true
  | _, _ => false

/-! ## Byte-level arithmetic lemmas -/

theorem natToBeBytes_length (l u : Nat) : (natToBeBytes l u).length = l := by
  induction l generalizing u with
  | zero => rfl
  | succ l ih => simp [natToBeBytes, ih]

theorem beNat_natToBeBytes (l u : Nat) :
    beNat (natToBeBytes l u) = u % 256 ^ l := by
  induction l generalizing u with
  | zero => simp [natToBeBytes, beNat, Nat.mod_one]
  | succ l ih =>
      simp only [natToBeBytes, beNat, natToBeBytes_length, ih, pow_succ]
      rw [Nat.mod_mul]
      ring

theorem beNat_lt (bs : List Nat) (h : ∀ b ∈ bs, b < 256) :
    beNat bs < 256 ^ bs.length := by
  induction bs with
  | nil => simp [beNat]
  | cons b rest ih =>
      have hb : b < 256 := h b (by simp)
      have hr : beNat rest < 256 ^ rest.length :=
        ih fun x hx => h x (by simp [hx])
      simp only [beNat, List.length_cons, pow_succ]
      calc b * 256 ^ rest.length + beNat rest
          < (b + 1) * 256 ^ rest.length := by ring_nf; omega
        _ ≤ 256 * 256 ^ rest.length := Nat.mul_le_mul_right _ (by omega)
        _ = 256 ^ rest.length * 256 := by ring

theorem toNat_emod_mod (l : Nat) (hl : l ≤ 8) (x : Int) :
    (x % (2 ^ 64)).toNat % 256 ^ l = (x % (2 ^ (8 * l))).toNat := by
  have h1 : (0 : Int) ≤ x % (2 ^ 64) := Int.emod_nonneg x (by positivity)
  have h2 : (0 : Int) ≤ x % (2 ^ (8 * l)) := Int.emod_nonneg x (by positivity)
  have hdvd : ((2 : Int) ^ (8 * l)) ∣ 2 ^ 64 := pow_dvd_pow 2 (by omega)
  have hpow : (((256 : Nat) ^ l : Nat) : Int) = 2 ^ (8 * l) := by
    push_cast
    rw [show (256 : Int) = 2 ^ 8 by norm_num, ← pow_mul]
  apply Nat.cast_injective (R := Int)
  rw [Int.natCast_mod, Int.toNat_of_nonneg h1, Int.toNat_of_nonneg h2]
  rw [hpow, Int.emod_emod_of_dvd x hdvd]

theorem signExtend_emod (l : Nat) (x : Int)
    (hlo : -(2 ^ (8 * l) : Int) ≤ 2 * x) (hhi : 2 * x < 2 ^ (8 * l)) :
    signExtend l (x % (2 ^ (8 * l))).toNat = x := by
  have hmpos : (0 : Int) < 2 ^ (8 * l) := by positivity
  have hr : x % (2 ^ (8 * l)) = x ∨
      x % (2 ^ (8 * l)) = x + 2 ^ (8 * l) := by
    by_cases hx : 0 ≤ x
    · exact Or.inl (Int.emod_eq_of_lt hx (by omega))
    · refine Or.inr ?_
      have h1 : (x + 2 ^ (8 * l) * 1) % (2 ^ (8 * l)) =
          x % (2 ^ (8 * l)) := Int.add_mul_emod_self_left x (2 ^ (8 * l)) 1
      rw [← h1, show x + 2 ^ (8 * l) * 1 = x + 2 ^ (8 * l) by ring]
      exact Int.emod_eq_of_lt (by omega) (by omega)
  unfold signExtend
  rcases hr with h | h <;> rw [h]
  · have hx0 : 0 ≤ x := by
      have := Int.emod_nonneg x (b := (2 : Int) ^ (8 * l)) (by positivity)
      omega
    have ht : ((x.toNat : Int)) = x := Int.toNat_of_nonneg hx0
    rw [if_neg]
    · exact ht
    · intro hc
      have hc2 : ((2 ^ (8 * l) : Nat) : Int) ≤ ((2 * x.toNat : Nat) : Int) :=
        Nat.cast_le.mpr hc
      push_cast at hc2
      omega
  · have h0 : 0 ≤ x + 2 ^ (8 * l) := by omega
    have ht : (((x + 2 ^ (8 * l)).toNat : Int)) = x + 2 ^ (8 * l) :=
      Int.toNat_of_nonneg h0
    have hcond' : ((2 : Int) ^ (8 * l)) ≤
        2 * ((x + 2 ^ (8 * l)).toNat : Int) := by rw [ht]; omega
    have hcond : (2 : Nat) ^ (8 * l) ≤ 2 * (x + 2 ^ (8 * l)).toNat := by
      exact_mod_cast hcond'
    rw [if_pos hcond, ht]
    ring

/-! ## Structural lemmas about the embedded operations -/

theorem write_to_buf_ok_length (f : ItemFormat) (l : Nat) (v : ItemValue)
    (bs : List Nat) (h : f.write_to_buf l v = .ok bs) : bs.length = l := by
  unfold ItemFormat.write_to_buf at h
  split_ifs at h with h1 h2
  cases f <;> cases v <;> simp only [writeArm] at h <;> cases h
  all_goals simp_all [writeMaxLen, writeMinLen, natToBeBytes_length]

theorem read_from_buf_ok (f : ItemFormat) (l : Nat) (buf : List Nat)
    (v : ItemValue) (rest : List Nat) (h : f.read_from_buf l buf = .ok v rest) :
    l ≤ buf.length ∧ rest = buf.drop l := by
  cases f <;>
    simp only [ItemFormat.read_from_buf] at h <;>
    split_ifs at h <;>
    cases h <;>
    exact ⟨by omega, rfl⟩

theorem errGo_head (fmts : List ItemFormat) (k : Nat) (f : ItemFormat)
    (fs : List ItemFormat)
    (h : MessageFormat.errGo fmts k (f :: fs) = .ok ()) :
    f.err k fmts = .ok () ∧ MessageFormat.errGo fmts (k + 1) fs = .ok () := by
  cases he : f.err k fmts with
  | crash => simp [MessageFormat.errGo, he] at h
  | error e => simp [MessageFormat.errGo, he] at h
  | ok u => cases u; simpa [MessageFormat.errGo, he] using h

theorem errGo_get (fmts : List ItemFormat) :
    ∀ (fs : List ItemFormat) (k j : Nat) (f : ItemFormat),
      MessageFormat.errGo fmts k fs = .ok () → fs.get? j = some f →
      f.err (k + j) fmts = .ok () := by
  intro fs
  induction fs with
  | nil => intro k j f _ hg; simp at hg
  | cons g gs ih =>
      intro k j f h hg
      obtain ⟨h1, h2⟩ := errGo_head fmts k g gs h
      cases j with
      | zero => simp_all
      | succ j =>
          have := ih (k + 1) j f h2 (by simpa using hg)
          simpa [Nat.add_assoc, Nat.add_comm 1 j] using this

theorem constraintsOk_length (fullV : List ItemValue) :
    ∀ (fs : List ItemFormat) (vs : List ItemValue),
      constraintsOk fullV fs vs = true → fs.length = vs.length := by
  intro fs
  induction fs with
  | nil => intro vs h; cases vs <;> simp_all [constraintsOk]
  | cons f fs ih =>
      intro vs h
      cases vs with
      | nil => simp [constraintsOk] at h
      | cons v vs =>
          simp only [constraintsOk, Bool.and_eq_true] at h
          simp [ih vs h.2]

theorem constraintsOk_get (fullV : List ItemValue) :
    ∀ (fs : List ItemFormat) (vs : List ItemValue) (j : Nat) (f : ItemFormat)
      (v : ItemValue),
      constraintsOk fullV fs vs = true → fs.get? j = some f →
      vs.get? j = some v → lenConstraint fullV f v = true := by
  intro fs
  induction fs with
  | nil => intro vs j f v _ hg; simp at hg
  | cons g gs ih =>
      intro vs j f v h hg hv
      cases vs with
      | nil => simp [constraintsOk] at h
      | cons w ws =>
          simp only [constraintsOk, Bool.and_eq_true] at h
          cases j with
          | zero => simp_all
          | succ j => exact ih ws j f v h.2 (by simpa using hg) (by simpa using hv)

theorem err_len_ok_iff (l idx : Nat) (fmts : List ItemFormat) :
    (ItemFormat.len l).err idx fmts = .ok () ↔ l ≤ 8 := by
  simp only [ItemFormat.err]
  split_ifs with h <;> simp <;> omega

theorem err_uint_ok_iff (l idx : Nat) (fmts : List ItemFormat) :
    (ItemFormat.uint l).err idx fmts = .ok () ↔ l ≤ 8 := by
  simp only [ItemFormat.err]
  split_ifs with h <;> simp <;> omega

theorem err_int_ok_iff (l idx : Nat) (fmts : List ItemFormat) :
    (ItemFormat.int l).err idx fmts = .ok () ↔ l ≤ 8 := by
  simp only [ItemFormat.err]
  split_ifs with h <;> simp <;> omega

theorem err_fixedString_ok_iff (l idx : Nat) (fmts : List ItemFormat) :
    (ItemFormat.fixedString l).err idx fmts = .ok () ↔ l ≤ USIZE_MAX := by
  simp only [ItemFormat.err]
  split_ifs with h <;> simp <;> omega

theorem err_fixedBytes_ok_iff (l idx : Nat) (fmts : List ItemFormat) :
    (ItemFormat.fixedBytes l).err idx fmts = .ok () ↔ l ≤ USIZE_MAX := by
  simp only [ItemFormat.err]
  split_ifs with h <;> simp <;> omega

theorem err_varString_ok_iff (lenIdx idx : Nat) (fmts : List ItemFormat) :
    (ItemFormat.varString lenIdx).err idx fmts = .ok () ↔
      lenIdx ≤ idx ∧ ∃ w, fmts.get? lenIdx = some (.len w) := by
  simp only [ItemFormat.err]
  split_ifs with h
  · simp; omega
  · cases hg : fmts.get? lenIdx with
    | none => simp [hg]
    | some g => cases g <;> simp [hg] <;> omega

theorem err_varBytes_ok_iff (lenIdx idx : Nat) (fmts : List ItemFormat) :
    (ItemFormat.varBytes lenIdx).err idx fmts = .ok () ↔
      lenIdx ≤ idx ∧ ∃ w, fmts.get? lenIdx = some (.len w) := by
  simp only [ItemFormat.err]
  split_ifs with h
  · simp; omega
  · cases hg : fmts.get? lenIdx with
    | none => simp [hg]
    | some g => cases g <;> simp [hg] <;> omega

theorem lookup_pushMsg (addr : String) (msg : Message) :
    ∀ (m : List (String × List Message)) (q : List Message),
      m.lookup addr = some q →
      (pushMsg addr msg m).lookup addr = some (q ++ [msg]) := by
  intro m
  induction m with
  | nil => intro q h; simp [List.lookup] at h
  | cons p rest ih =>
      intro q h
      obtain ⟨a, qq⟩ := p
      by_cases ha : a = addr
      · subst ha
        simp only [pushMsg, if_pos rfl]
        simp only [List.lookup, beq_self_eq_true] at h ⊢
        simp_all
      · have hne : (addr == a) = false := by
          simp only [beq_eq_false_iff_ne, ne_eq]
          exact fun hh => ha hh.symm
        simp only [List.lookup, hne] at h
        simp only [pushMsg, if_neg ha, List.lookup, hne]
        exact ih q h

theorem take_append_len {α : Type} (l1 l2 : List α) (n : Nat)
    (h : l1.length = n) : (l1 ++ l2).take n = l1 := by
  subst h; exact List.take_left l1 l2

theorem drop_append_len {α : Type} (l1 l2 : List α) (n : Nat)
    (h : l1.length = n) : (l1 ++ l2).drop n = l2 := by
  subst h; exact List.drop_left l1 l2

theorem get?_append_len {α : Type} (l1 l2 : List α) (n : Nat)
    (h : n < l1.length) : (l1 ++ l2).get? n = l1.get? n :=
  List.get?_append h

theorem int_write_read (l : Nat) (x : Int) (hl : l ≤ 8)
    (hlo : -(2 ^ (8 * l) : Int) ≤ 2 * x) (hhi : 2 * x < 2 ^ (8 * l)) :
    signExtend l (beNat (natToBeBytes l (x % (2 ^ 64)).toNat)) = x := by
  rw [beNat_natToBeBytes, toNat_emod_mod l hl x]
  exact signExtend_emod l x hlo hhi

/-- Per-field step facts for the roundtrip: under whole-schema validation and
whole-message constraints, field `k` resolves the same length `L` against the
full value list (encode) and against the length-`k` prefix (decode), writes a
chunk of exactly `L` bytes, and reading that chunk back returns the original
value. -/
theorem codec_step (F : List ItemFormat) (V preV : List ItemValue)
    (herrF : MessageFormat.errGo F 0 F = .ok ())
    (hconF : constraintsOk V F V = true)
    (k : Nat) (f : ItemFormat) (v : ItemValue)
    (hFk : F.get? k = some f)
    (herr1 : f.err k F = .ok ())
    (hc1 : lenConstraint V f v = true)
    (hpreV : ∀ j, j < k → preV.get? j = V.get? j) :
    ∃ L chunk,
      f.lenOf k F V = .ok L ∧
      f.lenOf k F preV = .ok L ∧
      f.write_to_buf L v = .ok chunk ∧
      chunk.length = L ∧
      ∀ rest, f.read_from_buf L (chunk ++ rest) = .ok v rest := by
  cases f with
  | len l =>
      cases v with
      | len x =>
          simp only [lenConstraint, decide_eq_true_eq] at hc1
          have hl : l ≤ 8 := (err_len_ok_iff l k F).mp herr1
          have hnl : ¬ (8 < l) := by omega
          refine ⟨l, natToBeBytes l x, ?_, ?_, ?_, natToBeBytes_length l x, ?_⟩
          · simp [ItemFormat.lenOf, herr1]
          · simp [ItemFormat.lenOf, herr1]
          · simp [ItemFormat.write_to_buf, writeMaxLen, writeMinLen, writeArm,
              hnl]
          · intro rest
            simp only [ItemFormat.read_from_buf]
            rw [if_neg (by simp only [List.length_append,
              natToBeBytes_length]; omega), if_neg hnl]
            rw [take_append_len _ _ _ (natToBeBytes_length l x),
              drop_append_len _ _ _ (natToBeBytes_length l x)]
            rw [beNat_natToBeBytes, Nat.mod_eq_of_lt hc1]
      | uint x => simp [lenConstraint] at hc1
      | int x => simp [lenConstraint] at hc1
      | string s => simp [lenConstraint] at hc1
      | bytes b => simp [lenConstraint] at hc1
  | uint l =>
      cases v with
      | uint x =>
          simp only [lenConstraint, decide_eq_true_eq] at hc1
          have hl : l ≤ 8 := (err_uint_ok_iff l k F).mp herr1
          have hnl : ¬ (8 < l) := by omega
          refine ⟨l, natToBeBytes l x, ?_, ?_, ?_, natToBeBytes_length l x, ?_⟩
          · simp [ItemFormat.lenOf, herr1]
          · simp [ItemFormat.lenOf, herr1]
          · simp [ItemFormat.write_to_buf, writeMaxLen, writeMinLen, writeArm,
              hnl]
          · intro rest
            simp only [ItemFormat.read_from_buf]
            rw [if_neg (by simp only [List.length_append,
              natToBeBytes_length]; omega), if_neg hnl]
            rw [take_append_len _ _ _ (natToBeBytes_length l x),
              drop_append_len _ _ _ (natToBeBytes_length l x)]
            rw [beNat_natToBeBytes, Nat.mod_eq_of_lt hc1]
      | len x => simp [lenConstraint] at hc1
      | int x => simp [lenConstraint] at hc1
      | string s => simp [lenConstraint] at hc1
      | bytes b => simp [lenConstraint] at hc1
  | int l =>
      cases v with
      | int x =>
          simp only [lenConstraint, decide_eq_true_eq] at hc1
          obtain ⟨hlo, hhi⟩ := hc1
          have hl : l ≤ 8 := (err_int_ok_iff l k F).mp herr1
          have hnl : ¬ (8 < l) := by omega
          refine ⟨l, natToBeBytes l (x % (2 ^ 64)).toNat, ?_, ?_, ?_,
            natToBeBytes_length _ _, ?_⟩
          · simp [ItemFormat.lenOf, herr1]
          · simp [ItemFormat.lenOf, herr1]
          · simp [ItemFormat.write_to_buf, writeMaxLen, writeMinLen, writeArm,
              hnl]
          · intro rest
            simp only [ItemFormat.read_from_buf]
            rw [if_neg (by simp only [List.length_append,
              natToBeBytes_length]; omega), if_neg hnl]
            rw [take_append_len _ _ _ (natToBeBytes_length _ _),
              drop_append_len _ _ _ (natToBeBytes_length _ _)]
            rw [int_write_read l x hl hlo hhi]
      | len x => simp [lenConstraint] at hc1
      | uint x => simp [lenConstraint] at hc1
      | string s => simp [lenConstraint] at hc1
      | bytes b => simp [lenConstraint] at hc1
  | fixedString l =>
      cases v with
      | string s =>
          simp only [lenConstraint, Bool.and_eq_true, decide_eq_true_eq] at hc1
          obtain ⟨hsl, hutf⟩ := hc1
          have hl : l ≤ USIZE_MAX := (err_fixedString_ok_iff l k F).mp herr1
          have hnl : ¬ (USIZE_MAX < l) := by omega
          refine ⟨l, s, ?_, ?_, ?_, hsl, ?_⟩
          · simp [ItemFormat.lenOf, herr1]
          · simp [ItemFormat.lenOf, herr1]
          · simp [ItemFormat.write_to_buf, writeMaxLen, writeMinLen, writeArm,
              hnl, hsl]
          · intro rest
            simp only [ItemFormat.read_from_buf]
            rw [if_neg (by simp only [List.length_append, hsl]; omega)]
            rw [take_append_len _ _ _ hsl, drop_append_len _ _ _ hsl]
            simp [hutf]
      | len x => simp [lenConstraint] at hc1
      | uint x => simp [lenConstraint] at hc1
      | int x => simp [lenConstraint] at hc1
      | bytes b => simp [lenConstraint] at hc1
  | varString lenIdx =>
      cases v with
      | string s =>
          simp only [lenConstraint, Bool.and_eq_true] at hc1
          obtain ⟨hmatch, hutf⟩ := hc1
          obtain ⟨hle, w, hFw⟩ := (err_varString_ok_iff lenIdx k F).mp herr1
          have hx : ∃ x, V.get? lenIdx = some (.len x) ∧ s.length = x := by
            cases hVl : V.get? lenIdx with
            | none => rw [hVl] at hmatch; simp at hmatch
            | some vv =>
                cases vv with
                | len x =>
                    rw [hVl] at hmatch
                    simp only [decide_eq_true_eq] at hmatch
                    exact ⟨x, rfl, hmatch⟩
                | uint x => rw [hVl] at hmatch; simp at hmatch
                | int x => rw [hVl] at hmatch; simp at hmatch
                | string s2 => rw [hVl] at hmatch; simp at hmatch
                | bytes b2 => rw [hVl] at hmatch; simp at hmatch
          obtain ⟨x, hVx, hsx⟩ := hx
          have hcLen : lenConstraint V (.len w) (.len x) = true :=
            constraintsOk_get V F V lenIdx (.len w) (.len x) hconF hFw hVx
          simp only [lenConstraint, decide_eq_true_eq] at hcLen
          have herrLen : (ItemFormat.len w).err lenIdx F = .ok () := by
            simpa using errGo_get F F 0 lenIdx (.len w) herrF hFw
          have hw8 : w ≤ 8 := (err_len_ok_iff w lenIdx F).mp herrLen
          have hx64 : x < 2 ^ 64 := by
            calc x < 256 ^ w := hcLen
              _ ≤ 256 ^ 8 := Nat.pow_le_pow_right (by norm_num) hw8
              _ = 2 ^ 64 := by norm_num
          have hxle : ¬ (USIZE_MAX < x) := by unfold USIZE_MAX; omega
          have hne : lenIdx < k := by
            rcases Nat.lt_or_ge lenIdx k with h | h
            · exact h
            · exfalso
              have heq : lenIdx = k := by omega
              subst heq
              rw [hFk] at hFw
              simp at hFw
          have hVx2 : V[lenIdx]? = some (ItemValue.len x) := by
            rw [← List.get?_eq_getElem?]; exact hVx
          have hpre2 : preV[lenIdx]? = some (ItemValue.len x) := by
            rw [← List.get?_eq_getElem?, hpreV lenIdx hne]; exact hVx
          refine ⟨x, s, ?_, ?_, ?_, hsx, ?_⟩
          · simp [ItemFormat.lenOf, herr1, ItemFormat.len_by_idx, hVx2]
          · simp [ItemFormat.lenOf, herr1, ItemFormat.len_by_idx, hpre2]
          · simp [ItemFormat.write_to_buf, writeMaxLen, writeMinLen, writeArm,
              hxle, hsx]
          · intro rest
            simp only [ItemFormat.read_from_buf]
            rw [if_neg (by simp only [List.length_append, hsx]; omega)]
            rw [take_append_len _ _ _ hsx, drop_append_len _ _ _ hsx]
            simp [hutf]
      | len x => simp [lenConstraint] at hc1
      | uint x => simp [lenConstraint] at hc1
      | int x => simp [lenConstraint] at hc1
      | bytes b => simp [lenConstraint] at hc1
  | fixedBytes l =>
      cases v with
      | bytes b =>
          simp only [lenConstraint, decide_eq_true_eq] at hc1
          have hl : l ≤ USIZE_MAX := (err_fixedBytes_ok_iff l k F).mp herr1
          have hnl : ¬ (USIZE_MAX < l) := by omega
          refine ⟨l, b, ?_, ?_, ?_, hc1, ?_⟩
          · simp [ItemFormat.lenOf, herr1]
          · simp [ItemFormat.lenOf, herr1]
          · simp [ItemFormat.write_to_buf, writeMaxLen, writeMinLen, writeArm,
              hnl, hc1]
          · intro rest
            simp only [ItemFormat.read_from_buf]
            rw [if_neg (by simp only [List.length_append, hc1]; omega)]
            rw [take_append_len _ _ _ hc1, drop_append_len _ _ _ hc1]
      | len x => simp [lenConstraint] at hc1
      | uint x => simp [lenConstraint] at hc1
      | int x => simp [lenConstraint] at hc1
      | string s => simp [lenConstraint] at hc1
  | varBytes lenIdx =>
      cases v with
      | bytes b =>
          simp only [lenConstraint] at hc1
          obtain ⟨hle, w, hFw⟩ := (err_varBytes_ok_iff lenIdx k F).mp herr1
          have hx : ∃ x, V.get? lenIdx = some (.len x) ∧ b.length = x := by
            cases hVl : V.get? lenIdx with
            | none => rw [hVl] at hc1; simp at hc1
            | some vv =>
                cases vv with
                | len x =>
                    rw [hVl] at hc1
                    simp only [decide_eq_true_eq] at hc1
                    exact ⟨x, rfl, hc1⟩
                | uint x => rw [hVl] at hc1; simp at hc1
                | int x => rw [hVl] at hc1; simp at hc1
                | string s2 => rw [hVl] at hc1; simp at hc1
                | bytes b2 => rw [hVl] at hc1; simp at hc1
          obtain ⟨x, hVx, hbx⟩ := hx
          have hcLen : lenConstraint V (.len w) (.len x) = true :=
            constraintsOk_get V F V lenIdx (.len w) (.len x) hconF hFw hVx
          simp only [lenConstraint, decide_eq_true_eq] at hcLen
          have herrLen : (ItemFormat.len w).err lenIdx F = .ok () := by
            simpa using errGo_get F F 0 lenIdx (.len w) herrF hFw
          have hw8 : w ≤ 8 := (err_len_ok_iff w lenIdx F).mp herrLen
          have hx64 : x < 2 ^ 64 := by
            calc x < 256 ^ w := hcLen
              _ ≤ 256 ^ 8 := Nat.pow_le_pow_right (by norm_num) hw8
              _ = 2 ^ 64 := by norm_num
          have hxle : ¬ (USIZE_MAX < x) := by unfold USIZE_MAX; omega
          have hne : lenIdx < k := by
            rcases Nat.lt_or_ge lenIdx k with h | h
            · exact h
            · exfalso
              have heq : lenIdx = k := by omega
              subst heq
              rw [hFk] at hFw
              simp at hFw
          have hVx2 : V[lenIdx]? = some (ItemValue.len x) := by
            rw [← List.get?_eq_getElem?]; exact hVx
          have hpre2 : preV[lenIdx]? = some (ItemValue.len x) := by
            rw [← List.get?_eq_getElem?, hpreV lenIdx hne]; exact hVx
          refine ⟨x, b, ?_, ?_, ?_, hbx, ?_⟩
          · simp [ItemFormat.lenOf, herr1, ItemFormat.len_by_idx, hVx2]
          · simp [ItemFormat.lenOf, herr1, ItemFormat.len_by_idx, hpre2]
          · simp [ItemFormat.write_to_buf, writeMaxLen, writeMinLen, writeArm,
              hxle, hbx]
          · intro rest
            simp only [ItemFormat.read_from_buf]
            rw [if_neg (by simp only [List.length_append, hbx]; omega)]
            rw [take_append_len _ _ _ hbx, drop_append_len _ _ _ hbx]
      | len x => simp [lenConstraint] at hc1
      | uint x => simp [lenConstraint] at hc1
      | int x => simp [lenConstraint] at hc1
      | string s => simp [lenConstraint] at hc1

/-- The encode and decode loops compose to a roundtrip across any suffix of
the schema, given whole-schema validation and whole-message constraints. -/
theorem roundtripGo (F : List ItemFormat) (V : List ItemValue)
    (herrF : MessageFormat.errGo F 0 F = .ok ())
    (hconF : constraintsOk V F V = true) :
    ∀ (fs : List ItemFormat) (vs : List ItemValue) (preF : List ItemFormat)
      (preV : List ItemValue),
      F = preF ++ fs → V = preV ++ vs → preF.length = preV.length →
      MessageFormat.errGo F preF.length fs = .ok () →
      constraintsOk V fs vs = true →
      ∃ bs, MessageFormat.encodeGo F V preF.length (fs.zip vs) = .ok bs ∧
        ∀ extra, MessageFormat.decodeGo F preF.length fs preV (bs ++ extra) =
          .ok (preV ++ vs) := by
  intro fs
  induction fs with
  | nil =>
      intro vs preF preV hF hV hk herr hcon
      cases vs with
      | nil =>
          refine ⟨[], rfl, fun extra => ?_⟩
          simp [MessageFormat.decodeGo]
      | cons v vs => simp [constraintsOk] at hcon
  | cons f fs ih =>
      intro vs preF preV hF hV hk herr hcon
      cases vs with
      | nil => simp [constraintsOk] at hcon
      | cons v vs =>
          obtain ⟨herr1, herr2⟩ := errGo_head F preF.length f fs herr
          simp only [constraintsOk, Bool.and_eq_true] at hcon
          obtain ⟨hc1, hc2⟩ := hcon
          have hFk : F.get? preF.length = some f := by
            rw [hF, List.get?_append_right (Nat.le_refl _)]
            simp
          have hpreV : ∀ j, j < preF.length → preV.get? j = V.get? j := by
            intro j hj
            rw [hV, get?_append_len preV (v :: vs) j (by omega)]
          obtain ⟨L, chunk, hlenV, hlenP, hwrite, hchunk, hread⟩ :=
            codec_step F V preV herrF hconF preF.length f v hFk herr1 hc1 hpreV
          obtain ⟨bs, henc, hdec⟩ := ih vs (preF ++ [f]) (preV ++ [v])
            (by rw [hF]; simp) (by rw [hV]; simp) (by simp [hk])
            (by simpa using herr2) hc2
          have henc2 : MessageFormat.encodeGo F V (preF.length + 1)
              (fs.zip vs) = .ok bs := by simpa using henc
          refine ⟨chunk ++ bs, ?_, ?_⟩
          · simp only [List.zip_cons_cons, MessageFormat.encodeGo, hlenV,
              hwrite]
            rw [show List.zipWith Prod.mk fs vs = fs.zip vs from rfl, henc2]
          · intro extra
            have hdec2 : MessageFormat.decodeGo F (preF.length + 1) fs
                (preV ++ [v]) (bs ++ extra) = .ok ((preV ++ [v]) ++ vs) := by
              simpa using hdec extra
            simp only [MessageFormat.decodeGo, hlenP, List.append_assoc,
              List.singleton_append, hread (bs ++ extra)]
            rw [show preV ++ [v] = preV ++ [v] from rfl] at hdec2
            simp only [List.append_assoc, List.singleton_append] at hdec2
            simp only [hdec2]

/-- C1.  Round-trip: for every `MessageFormat` that passes validation and
every `Message` whose values satisfy every field's length constraints,
encoding succeeds and decoding the produced bytes yields the original
message: `decode(format, encode(format, message)) == message`. -/
theorem c1_roundtrip (fmt : MessageFormat) (msg : Message)
    (hvalid : fmt.err = .ok ())
    (hcon : constraintsOk msg.values fmt.itemFmts msg.values = true) :
    ∃ bs, fmt.encode msg = .ok bs ∧ fmt.decode bs = .ok msg := by
  obtain ⟨F⟩ := fmt
  obtain ⟨V⟩ := msg
  simp only at hcon ⊢
  have herrF : MessageFormat.errGo F 0 F = .ok () := by
    rcases hb : F.isEmpty with _ | _
    · simp [MessageFormat.err, hb] at hvalid
      exact hvalid
    · simp [MessageFormat.err, hb] at hvalid
  obtain ⟨bs, henc, hdec⟩ :=
    roundtripGo F V herrF hcon F V [] [] rfl rfl rfl herrF hcon
  refine ⟨bs, ?_, ?_⟩
  · unfold MessageFormat.encode
    exact henc
  · unfold MessageFormat.decode
    have hd := hdec []
    rw [List.append_nil] at hd
    simp only [List.nil_append] at hd
    simp only [List.length_nil] at hd
    rw [hd]

/-- C1 witness: a concrete validated format and constrained message
round-trip through encode and decode. -/
theorem c1_roundtrip_witness :
    ∃ bs,
      MessageFormat.encode ⟨[.len 1, .varBytes 0]⟩ ⟨[.len 2, .bytes [7, 8]]⟩ =
        .ok bs ∧
      MessageFormat.decode ⟨[.len 1, .varBytes 0]⟩ bs =
        .ok ⟨[.len 2, .bytes [7, 8]]⟩ :=
  c1_roundtrip ⟨[.len 1, .varBytes 0]⟩ ⟨[.len 2, .bytes [7, 8]]⟩
    (by decide) (by decide)

theorem zip_eq_zip_take {a b : Type} :
    ∀ (l1 : List a) (l2 : List b),
      l1.zip l2 = (l1.take l2.length).zip (l2.take l1.length)
  | [], l2 => by simp
  | x :: xs, [] => by simp
  | x :: xs, y :: ys => by
      simp only [List.length_cons, List.take_succ_cons, List.zip_cons_cons]
      rw [← zip_eq_zip_take xs ys]

theorem err_congr (f : ItemFormat) (k : Nat) (F1 F2 : List ItemFormat)
    (hF : ∀ j, j ≤ k → F1.get? j = F2.get? j) :
    f.err k F1 = f.err k F2 := by
  cases f with
  | len l => rfl
  | uint l => rfl
  | int l => rfl
  | fixedString l => rfl
  | fixedBytes l => rfl
  | varString lenIdx =>
      simp only [ItemFormat.err]
      by_cases h : k < lenIdx
      · rw [if_pos h, if_pos h]
      · rw [if_neg h, if_neg h, hF lenIdx (by omega)]
  | varBytes lenIdx =>
      simp only [ItemFormat.err]
      by_cases h : k < lenIdx
      · rw [if_pos h, if_pos h]
      · rw [if_neg h, if_neg h, hF lenIdx (by omega)]

theorem lenOf_congr (f : ItemFormat) (k : Nat) (F1 F2 : List ItemFormat)
    (V1 V2 : List ItemValue)
    (hF : ∀ j, j ≤ k → F1.get? j = F2.get? j)
    (hV : ∀ j, j ≤ k → V1.get? j = V2.get? j) :
    f.lenOf k F1 V1 = f.lenOf k F2 V2 := by
  have he := err_congr f k F1 F2 hF
  cases f with
  | len l => simp only [ItemFormat.lenOf, he]
  | uint l => simp only [ItemFormat.lenOf, he]
  | int l => simp only [ItemFormat.lenOf, he]
  | fixedString l => simp only [ItemFormat.lenOf, he]
  | fixedBytes l => simp only [ItemFormat.lenOf, he]
  | varString lenIdx =>
      simp only [ItemFormat.lenOf, he]
      cases hr : (ItemFormat.varString lenIdx).err k F2 with
      | crash => rfl
      | error e => rfl
      | ok u =>
          cases u
          obtain ⟨hle, w, hw⟩ := (err_varString_ok_iff lenIdx k F2).mp hr
          unfold ItemFormat.len_by_idx
          rw [hV lenIdx hle]
  | varBytes lenIdx =>
      simp only [ItemFormat.lenOf, he]
      cases hr : (ItemFormat.varBytes lenIdx).err k F2 with
      | crash => rfl
      | error e => rfl
      | ok u =>
          cases u
          obtain ⟨hle, w, hw⟩ := (err_varBytes_ok_iff lenIdx k F2).mp hr
          unfold ItemFormat.len_by_idx
          rw [hV lenIdx hle]

theorem encodeGo_congr (F1 F2 : List ItemFormat) (V1 V2 : List ItemValue) :
    ∀ (pairs : List (ItemFormat × ItemValue)) (k : Nat),
      (∀ j, j < k + pairs.length → F1.get? j = F2.get? j) →
      (∀ j, j < k + pairs.length → V1.get? j = V2.get? j) →
      MessageFormat.encodeGo F1 V1 k pairs =
        MessageFormat.encodeGo F2 V2 k pairs := by
  intro pairs
  induction pairs with
  | nil => intro k _ _; rfl
  | cons p rest ih =>
      intro k hF hV
      obtain ⟨f, v⟩ := p
      have hF1 : ∀ j, j ≤ k → F1.get? j = F2.get? j := fun j hj =>
        hF j (by simp only [List.length_cons]; omega)
      have hV1 : ∀ j, j ≤ k → V1.get? j = V2.get? j := fun j hj =>
        hV j (by simp only [List.length_cons]; omega)
      have hlen := lenOf_congr f k F1 F2 V1 V2 hF1 hV1
      have hrec := ih (k + 1)
        (fun j hj => hF j (by simp only [List.length_cons]; omega))
        (fun j hj => hV j (by simp only [List.length_cons]; omega))
      simp only [MessageFormat.encodeGo]
      rw [hlen, hrec]

theorem decodeGo_lens (F : List ItemFormat) :
    ∀ (fs : List ItemFormat) (k : Nat) (acc : List ItemValue)
      (buf : List Nat) (out : List ItemValue),
      MessageFormat.decodeGo F k fs acc buf = .ok out →
      ∃ vs Ls, out = acc ++ vs ∧
        MessageFormat.resolvedLens F k fs acc vs = .ok Ls ∧
        Ls.sum ≤ buf.length := by
  intro fs
  induction fs with
  | nil =>
      intro k acc buf out h
      simp only [MessageFormat.decodeGo, RResult.ok.injEq] at h
      exact ⟨[], [], by simp [h], rfl, by simp⟩
  | cons f fs ih =>
      intro k acc buf out h
      simp only [MessageFormat.decodeGo] at h
      cases hl : f.lenOf k F acc with
      | crash => simp [hl] at h
      | error e => simp [hl] at h
      | ok l =>
          simp only [hl] at h
          cases hr : f.read_from_buf l buf with
          | crash => simp [hr] at h
          | error e => cases e <;> simp [hr] at h
          | ok v rest =>
              simp only [hr] at h
              obtain ⟨hle, hrest⟩ := read_from_buf_ok f l buf v rest hr
              obtain ⟨vs, Ls, hout, hlens, hsum⟩ :=
                ih (k + 1) (acc ++ [v]) rest out h
              refine ⟨v :: vs, l :: Ls, ?_, ?_, ?_⟩
              · rw [hout]; simp
              · simp only [MessageFormat.resolvedLens, hl, hlens]
              · have hrl : rest.length = buf.length - l := by
                  rw [hrest, List.length_drop]
                simp only [List.sum_cons]
                omega

theorem encodeGo_chunks (F : List ItemFormat) (V : List ItemValue) :
    ∀ (pairs : List (ItemFormat × ItemValue)) (k : Nat) (bs : List Nat),
      MessageFormat.encodeGo F V k pairs = .ok bs →
      ∃ lcs : List (Nat × List Nat),
        MessageFormat.encodeChunks F V k pairs = .ok lcs ∧
        bs = (lcs.map Prod.snd).join ∧
        (∀ p ∈ lcs, (Prod.snd p).length = Prod.fst p) ∧
        bs.length = (lcs.map Prod.fst).sum := by
  intro pairs
  induction pairs with
  | nil =>
      intro k bs h
      simp only [MessageFormat.encodeGo, RResult.ok.injEq] at h
      exact ⟨[], rfl, by simp [← h], by simp, by simp [← h]⟩
  | cons p rest ih =>
      intro k bs h
      obtain ⟨f, v⟩ := p
      simp only [MessageFormat.encodeGo] at h
      cases hl : f.lenOf k F V with
      | crash => simp [hl] at h
      | error e => simp [hl] at h
      | ok l =>
          simp only [hl] at h
          cases hw : f.write_to_buf l v with
          | crash => simp [hw] at h
          | error e => simp [hw] at h
          | ok chunk =>
              simp only [hw] at h
              cases he : MessageFormat.encodeGo F V (k + 1) rest with
              | crash => simp [he] at h
              | error e => simp [he] at h
              | ok tail =>
                  simp only [he, RResult.ok.injEq] at h
                  obtain ⟨lcs, hc, hjoin, hlen, hsum⟩ := ih (k + 1) tail he
                  have hchunk := write_to_buf_ok_length f l v chunk hw
                  refine ⟨(l, chunk) :: lcs, ?_, ?_, ?_, ?_⟩
                  · simp only [MessageFormat.encodeChunks, hl, hw, hc]
                  · rw [← h, hjoin]; simp
                  · intro p hp
                    rcases List.mem_cons.mp hp with hp | hp
                    · rw [hp]; exact hchunk
                    · exact hlen p hp
                  · rw [← h]
                    simp only [List.length_append, List.map_cons,
                      List.sum_cons]
                    omega

/-! ## Claim theorems -/

/-- C2 (counterexample).  With the format checks satisfied (`len_idx = 0 ≤ 1`
and field 0 a `Len` format) but the value at `len_idx` absent, length
resolution panics (`len_by_idx`'s `panic!()`) instead of returning any
error — refuting the claim that it returns an error rather than panicking. -/
theorem c2_counterexample :
    ItemFormat.lenOf (.varBytes 0) 1 [.len 1, .varBytes 0] [] = .crash ∧
    ∀ e : Error,
      ItemFormat.lenOf (.varBytes 0) 1 [.len 1, .varBytes 0] [] ≠
        .error e := by
  constructor
  · decide
  · intro e h
    rw [show ItemFormat.lenOf (.varBytes 0) 1 [.len 1, .varBytes 0] [] =
      .crash by decide] at h
    exact RResult.noConfusion h

/-- C2 (amended).  Length resolution for a `VarString`/`VarBytes` field
signals its error conditions from the format list, not the value list: a
forward reference (`idx < len_idx`) yields the length-index-out-of-bound
error, a non-`Len` format at `len_idx` yields the not-a-length error; when
the format checks pass, a `Len` value present at `len_idx` resolves to that
value, but an absent or non-`Len` value there makes the lookup panic
rather than return an error. -/
theorem c2_len_resolution (lenIdx idx : Nat) (fmts : List ItemFormat)
    (values : List ItemValue) (f : ItemFormat)
    (hf : f = .varString lenIdx ∨ f = .varBytes lenIdx) :
    (idx < lenIdx →
      f.lenOf idx fmts values = .error (.lenIdxTooLarge idx lenIdx)) ∧
    (¬ idx < lenIdx → ∀ g, fmts.get? lenIdx = some g → (∀ w, g ≠ .len w) →
      f.lenOf idx fmts values = .error (.notALen idx lenIdx)) ∧
    (¬ idx < lenIdx → ∀ w, fmts.get? lenIdx = some (.len w) →
      (∀ x, values.get? lenIdx ≠ some (.len x)) →
      f.lenOf idx fmts values = .crash) ∧
    (¬ idx < lenIdx → ∀ w x, fmts.get? lenIdx = some (.len w) →
      values.get? lenIdx = some (.len x) →
      f.lenOf idx fmts values = .ok x) := by
  have main : ∀ f2 : ItemFormat, (f2 = ItemFormat.varString lenIdx ∨
      f2 = ItemFormat.varBytes lenIdx) →
      (idx < lenIdx →
        f2.lenOf idx fmts values = .error (.lenIdxTooLarge idx lenIdx)) ∧
      (¬ idx < lenIdx → ∀ g, fmts.get? lenIdx = some g → (∀ w, g ≠ .len w) →
        f2.lenOf idx fmts values = .error (.notALen idx lenIdx)) ∧
      (¬ idx < lenIdx → ∀ w, fmts.get? lenIdx = some (.len w) →
        (∀ x, values.get? lenIdx ≠ some (.len x)) →
        f2.lenOf idx fmts values = .crash) ∧
      (¬ idx < lenIdx → ∀ w x, fmts.get? lenIdx = some (.len w) →
        values.get? lenIdx = some (.len x) →
        f2.lenOf idx fmts values = .ok x) := by
    intro f2 hf2
    refine ⟨?_, ?_, ?_, ?_⟩
    · intro h
      rcases hf2 with hf2 | hf2 <;> subst hf2 <;>
        simp [ItemFormat.lenOf, ItemFormat.err, h]
    · intro h g hg hnl
      have hg2 : fmts[lenIdx]? = some g := by
        rw [← List.get?_eq_getElem?]; exact hg
      cases g with
      | len w => exact absurd rfl (hnl w)
      | uint w =>
          rcases hf2 with hf2 | hf2 <;> subst hf2 <;>
            simp [ItemFormat.lenOf, ItemFormat.err, h, hg2]
      | int w =>
          rcases hf2 with hf2 | hf2 <;> subst hf2 <;>
            simp [ItemFormat.lenOf, ItemFormat.err, h, hg2]
      | fixedString w =>
          rcases hf2 with hf2 | hf2 <;> subst hf2 <;>
            simp [ItemFormat.lenOf, ItemFormat.err, h, hg2]
      | varString w =>
          rcases hf2 with hf2 | hf2 <;> subst hf2 <;>
            simp [ItemFormat.lenOf, ItemFormat.err, h, hg2]
      | fixedBytes w =>
          rcases hf2 with hf2 | hf2 <;> subst hf2 <;>
            simp [ItemFormat.lenOf, ItemFormat.err, h, hg2]
      | varBytes w =>
          rcases hf2 with hf2 | hf2 <;> subst hf2 <;>
            simp [ItemFormat.lenOf, ItemFormat.err, h, hg2]
    · intro h w hw hnone
      have hw2 : fmts[lenIdx]? = some (ItemFormat.len w) := by
        rw [← List.get?_eq_getElem?]; exact hw
      cases hv : values.get? lenIdx with
      | none =>
          have hv2 : values[lenIdx]? = none := by
            rw [← List.get?_eq_getElem?]; exact hv
          rcases hf2 with hf2 | hf2 <;> subst hf2 <;>
            simp [ItemFormat.lenOf, ItemFormat.err, ItemFormat.len_by_idx, h,
              hw2, hv2]
      | some vv =>
          have hv2 : values[lenIdx]? = some vv := by
            rw [← List.get?_eq_getElem?]; exact hv
          cases vv with
          | len x => exact absurd hv (hnone x)
          | uint x =>
              rcases hf2 with hf2 | hf2 <;> subst hf2 <;>
                simp [ItemFormat.lenOf, ItemFormat.err, ItemFormat.len_by_idx,
                  h, hw2, hv2]
          | int x =>
              rcases hf2 with hf2 | hf2 <;> subst hf2 <;>
                simp [ItemFormat.lenOf, ItemFormat.err, ItemFormat.len_by_idx,
                  h, hw2, hv2]
          | string s =>
              rcases hf2 with hf2 | hf2 <;> subst hf2 <;>
                simp [ItemFormat.lenOf, ItemFormat.err, ItemFormat.len_by_idx,
                  h, hw2, hv2]
          | bytes b =>
              rcases hf2 with hf2 | hf2 <;> subst hf2 <;>
                simp [ItemFormat.lenOf, ItemFormat.err, ItemFormat.len_by_idx,
                  h, hw2, hv2]
    · intro h w x hw hx
      have hw2 : fmts[lenIdx]? = some (ItemFormat.len w) := by
        rw [← List.get?_eq_getElem?]; exact hw
      have hx2 : values[lenIdx]? = some (ItemValue.len x) := by
        rw [← List.get?_eq_getElem?]; exact hx
      rcases hf2 with hf2 | hf2 <;> subst hf2 <;>
        simp [ItemFormat.lenOf, ItemFormat.err, ItemFormat.len_by_idx, h, hw2,
          hx2]
  exact main f hf

/-- C2 witness: the three resolution outcomes at concrete inputs. -/
theorem c2_len_resolution_witness :
    (ItemFormat.varString 2).lenOf 1 [] [] =
      .error (.lenIdxTooLarge 1 2) ∧
    (ItemFormat.varBytes 0).lenOf 0 [.uint 1] [] =
      .error (.notALen 0 0) ∧
    (ItemFormat.varBytes 0).lenOf 1 [.len 1, .varBytes 0] [.len 5] =
      .ok 5 := by
  refine ⟨?_, ?_, ?_⟩
  · exact (c2_len_resolution 2 1 [] [] _ (Or.inl rfl)).1 (by omega)
  · exact (c2_len_resolution 0 0 [.uint 1] [] _ (Or.inr rfl)).2.1
      (by omega) (.uint 1) rfl (fun w h => ItemFormat.noConfusion h)
  · exact (c2_len_resolution 0 1 [.len 1, .varBytes 0] [.len 5] _
      (Or.inr rfl)).2.2.2 (by omega) 1 5 rfl rfl

/-- C3 (counterexample).  A self reference (`len_idx` equal to the field's
own position) is rejected, but with the not-a-length error, not the
forward/self-reference (`LenIdxTooLarge`) error kind the claim states. -/
theorem c3_counterexample :
    MessageFormat.err ⟨[.len 1, .varString 1]⟩ = .error (.notALen 1 1) ∧
    Error.notALen 1 1 ≠ Error.lenIdxTooLarge 1 1 := by decide

/-- C3 (amended).  A schema containing a `VarString`/`VarBytes` field whose
`len_idx` equals or exceeds its own position is never accepted: a strictly
larger `len_idx` yields the forward-reference error (`LenIdxTooLarge`),
while `len_idx` equal to the position yields the not-a-length error
(`NotALen`) because the field references itself, which is not a `Len`. -/
theorem c3_schema_rejection (fmts : List ItemFormat) (idx lenIdx : Nat)
    (f : ItemFormat) (hf : f = .varString lenIdx ∨ f = .varBytes lenIdx)
    (hget : fmts.get? idx = some f) (hge : idx ≤ lenIdx) :
    MessageFormat.err ⟨fmts⟩ ≠ .ok () ∧
    (idx < lenIdx → f.err idx fmts = .error (.lenIdxTooLarge idx lenIdx)) ∧
    (lenIdx = idx → f.err idx fmts = .error (.notALen idx lenIdx)) := by
  have hget2 : fmts[idx]? = some f := by
    rw [← List.get?_eq_getElem?]; exact hget
  have hlt : (idx < lenIdx →
      f.err idx fmts = .error (.lenIdxTooLarge idx lenIdx)) := by
    intro h
    rcases hf with hf | hf <;> subst hf <;> simp [ItemFormat.err, h]
  have heq : (lenIdx = idx →
      f.err idx fmts = .error (.notALen idx lenIdx)) := by
    intro h
    subst h
    rcases hf with hf | hf <;> subst hf <;>
      simp [ItemFormat.err, hget2]
  refine ⟨?_, hlt, heq⟩
  intro hok
  have hself : f.err idx fmts ≠ .ok () := by
    rcases Nat.lt_or_ge idx lenIdx with h | h
    · rw [hlt h]; exact fun hh => RResult.noConfusion hh
    · have h2 : lenIdx = idx := by omega
      rw [heq h2]; exact fun hh => RResult.noConfusion hh
  cases fmts with
  | nil => simp at hget
  | cons a as =>
      have hok2 : MessageFormat.errGo (a :: as) 0 (a :: as) = .ok () := by
        simpa [MessageFormat.err] using hok
      have := errGo_get (a :: as) (a :: as) 0 idx f hok2 hget
      simp only [Nat.zero_add] at this
      exact hself this

/-- C3 witness: the two rejection kinds at concrete schemas. -/
theorem c3_schema_rejection_witness :
    MessageFormat.err ⟨[.len 1, .varString 1]⟩ ≠ .ok () ∧
    (ItemFormat.varString 1).err 1 [.len 1, .varString 1] =
      .error (.notALen 1 1) ∧
    (ItemFormat.varBytes 3).err 0 [.varBytes 3] =
      .error (.lenIdxTooLarge 0 3) := by
  refine ⟨?_, ?_, ?_⟩
  · exact (c3_schema_rejection [.len 1, .varString 1] 1 1 _ (Or.inl rfl)
      rfl (by omega)).1
  · exact (c3_schema_rejection [.len 1, .varString 1] 1 1 _ (Or.inl rfl)
      rfl (by omega)).2.2 rfl
  · exact (c3_schema_rejection [.varBytes 3] 0 3 _ (Or.inr rfl)
      rfl (by omega)).2.1 (by omega)

/-- C4.  Schema validation accepts a `Len` field of width 0 and a
`FixedString` field of width 0 — the minimum-width half of the claim is not
enforced anywhere (`Error::LenTooSmall` exists but is never produced) —
while the 8-byte maximum for the integer kinds is enforced. -/
theorem c4_width_validation :
    MessageFormat.err ⟨[.len 0]⟩ = .ok () ∧
    MessageFormat.err ⟨[.uint 0]⟩ = .ok () ∧
    MessageFormat.err ⟨[.int 0]⟩ = .ok () ∧
    MessageFormat.err ⟨[.fixedString 0]⟩ = .ok () ∧
    MessageFormat.err ⟨[.fixedBytes 0]⟩ = .ok () ∧
    MessageFormat.err ⟨[.len 9]⟩ = .error (.lenTooLarge 8 0 9) ∧
    MessageFormat.err ⟨[.uint 9]⟩ = .error (.lenTooLarge 8 0 9) ∧
    MessageFormat.err ⟨[.int 9]⟩ = .error (.lenTooLarge 8 0 9) := by
  decide

/-- C9.  `Server::send_msg` fails with `NoSuchClient` exactly when the
target address is not registered in the shared map, and otherwise pushes
the message onto that peer's queue and succeeds; `Client::send_msg` fails
with `NotConnected` exactly when no sender is present, and otherwise pushes
onto its single queue and succeeds. -/
theorem c9_send_msg (txMap : List (String × List Message)) (addr : String)
    (msg : Message) :
    (txMap.lookup addr = none →
      Server.send_msg txMap addr msg = .error (.noSuchClient addr)) ∧
    (∀ q, txMap.lookup addr = some q →
      Server.send_msg txMap addr msg = .ok (pushMsg addr msg txMap) ∧
      (pushMsg addr msg txMap).lookup addr = some (q ++ [msg])) ∧
    (Client.send_msg none msg = .error .notConnected) ∧
    (∀ q, Client.send_msg (some q) msg = .ok (some (q ++ [msg]))) := by
  refine ⟨?_, ?_, rfl, fun q => rfl⟩
  · intro h
    simp [Server.send_msg, h]
  · intro q h
    exact ⟨by simp [Server.send_msg, h], lookup_pushMsg addr msg txMap q h⟩

/-- C9 witness: the send outcomes at a concrete one-entry map. -/
theorem c9_send_msg_witness :
    Server.send_msg [("a", [])] "b" ⟨[]⟩ = .error (.noSuchClient "b") ∧
    Server.send_msg [("a", [])] "a" ⟨[]⟩ = .ok [("a", [⟨[]⟩])] ∧
    Client.send_msg none ⟨[]⟩ = .error .notConnected ∧
    Client.send_msg (some []) ⟨[]⟩ = .ok (some [⟨[]⟩]) := by
  refine ⟨?_, ?_, ?_, ?_⟩
  · exact (c9_send_msg [("a", [])] "b" ⟨[]⟩).1 rfl
  · exact ((c9_send_msg [("a", [])] "a" ⟨[]⟩).2.1 [] rfl).1
  · exact (c9_send_msg [] "a" ⟨[]⟩).2.2.1
  · exact (c9_send_msg [] "a" ⟨[]⟩).2.2.2 []

/-- C5 (counterexample).  A byte sequence shorter than the sum of resolved
field lengths (1 byte against 1+1) can fail with the invalid-UTF-8 error,
not the end-of-data error: the first field is fully supplied but its byte
0xFF is not valid UTF-8. -/
theorem c5_counterexample :
    (ItemFormat.fixedString 1).lenOf 0 [.fixedString 1, .fixedBytes 1] [] =
      .ok 1 ∧
    (ItemFormat.fixedBytes 1).lenOf 1 [.fixedString 1, .fixedBytes 1]
      [.string [97]] = .ok 1 ∧
    ([255] : List Nat).length < 1 + 1 ∧
    MessageFormat.decode ⟨[.fixedString 1, .fixedBytes 1]⟩ [255] =
      .error (.fromUtf8 0) ∧
    Error.fromUtf8 0 ≠ Error.eof := by decide

/-- C5 (amended).  Truncation safety: decode never returns a (partial or
full) `Message` on an input shorter than the sum of the resolved field
lengths — whenever decode succeeds, the resolved lengths of all fields are
defined and their sum is at most the input length.  (The failure on a
shorter input is end-of-data unless an earlier, fully supplied field fails
first, e.g. with invalid UTF-8.) -/
theorem c5_truncation_safety (fmt : MessageFormat) (buf : List Nat)
    (msg : Message) (h : fmt.decode buf = .ok msg) :
    ∃ Ls, MessageFormat.resolvedLens fmt.itemFmts 0 fmt.itemFmts []
        msg.values = .ok Ls ∧ Ls.sum ≤ buf.length := by
  obtain ⟨F⟩ := fmt
  obtain ⟨V⟩ := msg
  unfold MessageFormat.decode at h
  simp only at h ⊢
  cases hd : MessageFormat.decodeGo F 0 F [] buf with
  | crash => simp [hd] at h
  | error e => simp [hd] at h
  | ok out =>
      simp only [hd, RResult.ok.injEq, Message.mk.injEq] at h
      obtain ⟨vs, Ls, hout, hlens, hsum⟩ := decodeGo_lens F F 0 [] buf out hd
      simp only [List.nil_append] at hout
      refine ⟨Ls, ?_, hsum⟩
      rw [← h, hout]
      exact hlens

/-- C5 witness: a successful decode at a concrete input, with its resolved
lengths summing to at most the input length. -/
theorem c5_truncation_safety_witness :
    ∃ Ls, MessageFormat.resolvedLens [ItemFormat.len 1] 0 [ItemFormat.len 1]
        [] [ItemValue.len 7] = .ok Ls ∧ Ls.sum ≤ ([7] : List Nat).length :=
  c5_truncation_safety ⟨[.len 1]⟩ [7] ⟨[.len 7]⟩ (by decide)

/-- C6.  Sign extension: an `Int` field of width 1 holding −1 encodes to the
single byte 0xFF, and decoding 0xFF with width 1 yields −1; generally,
decoding an `Int` field's `l` bytes yields the signed value congruent to
the unsigned big-endian value modulo `2^(8l)` and lying in
`[−2^(8l−1), 2^(8l−1))`. -/
theorem c6_sign_extension :
    MessageFormat.encode ⟨[.int 1]⟩ ⟨[.int (-1)]⟩ = .ok [255] ∧
    MessageFormat.decode ⟨[.int 1]⟩ [255] = .ok ⟨[.int (-1)]⟩ ∧
    ∀ (l : Nat) (bs : List Nat), 1 ≤ l → l ≤ 8 → bs.length = l →
      (∀ b ∈ bs, b < 256) →
      ∃ v : Int, (ItemFormat.int l).read_from_buf l bs = .ok (.int v) [] ∧
        v % (2 ^ (8 * l) : Int) = ((beNat bs : Nat) : Int) ∧
        -(2 ^ (8 * l) : Int) ≤ 2 * v ∧ 2 * v < 2 ^ (8 * l) := by
  refine ⟨by decide, by decide, ?_⟩
  intro l bs h1 h8 hlen hbytes
  have hM : ((256 : Nat) ^ l) = 2 ^ (8 * l) := by
    rw [show (256 : Nat) = 2 ^ 8 by norm_num, ← pow_mul]
  have hu : beNat bs < 2 ^ (8 * l) := by
    have hb := beNat_lt bs hbytes
    rw [hlen, hM] at hb
    exact hb
  have huI : ((beNat bs : Nat) : Int) < 2 ^ (8 * l) := by exact_mod_cast hu
  have hu0 : (0 : Int) ≤ ((beNat bs : Nat) : Int) := Int.natCast_nonneg _
  refine ⟨signExtend l (beNat bs), ?_, ?_, ?_⟩
  · simp only [ItemFormat.read_from_buf]
    rw [if_neg (by omega), if_neg (by omega)]
    rw [show bs.take l = bs from by rw [← hlen]; exact List.take_length bs,
        show bs.drop l = [] from by rw [← hlen]; exact List.drop_length bs]
  · unfold signExtend
    by_cases hc : 2 ^ (8 * l) ≤ 2 * beNat bs
    · rw [if_pos hc]
      rw [show ((beNat bs : Nat) : Int) - 2 ^ (8 * l) =
        ((beNat bs : Nat) : Int) + 2 ^ (8 * l) * (-1) by ring]
      rw [Int.add_mul_emod_self_left]
      exact Int.emod_eq_of_lt hu0 huI
    · rw [if_neg hc]
      exact Int.emod_eq_of_lt hu0 huI
  · unfold signExtend
    by_cases hc : 2 ^ (8 * l) ≤ 2 * beNat bs
    · have hcI : (2 : Int) ^ (8 * l) ≤ 2 * ((beNat bs : Nat) : Int) := by
        exact_mod_cast hc
      rw [if_pos hc]
      constructor <;> omega
    · have hcI : ¬ ((2 : Int) ^ (8 * l) ≤ 2 * ((beNat bs : Nat) : Int)) := by
        intro hx
        exact hc (by exact_mod_cast hx)
      rw [if_neg hc]
      constructor <;> omega

/-- C6 witness: the general sign-extension characterisation instantiated at
width 2 and bytes 0xFF 0xFE. -/
theorem c6_sign_extension_witness :
    ∃ v : Int,
      (ItemFormat.int 2).read_from_buf 2 [255, 254] = .ok (.int v) [] ∧
      v % (2 ^ (8 * 2) : Int) = ((beNat [255, 254] : Nat) : Int) ∧
      -(2 ^ (8 * 2) : Int) ≤ 2 * v ∧ 2 * v < 2 ^ (8 * 2) :=
  c6_sign_extension.2.2 2 [255, 254] (by omega) (by omega) (by decide)
    (by decide)

/-- C7.  When encode succeeds, the output is exactly the in-order
concatenation of the per-field chunks — no framing, checksum or terminator —
and each chunk has exactly the field's resolved length, so the total output
length is the sum of the resolved field lengths. -/
theorem c7_encode_concatenation (fmt : MessageFormat) (msg : Message)
    (bs : List Nat) (h : fmt.encode msg = .ok bs) :
    ∃ lcs : List (Nat × List Nat),
      MessageFormat.encodeChunks fmt.itemFmts msg.values 0
          (fmt.itemFmts.zip msg.values) = .ok lcs ∧
      bs = (lcs.map Prod.snd).join ∧
      (∀ p ∈ lcs, (Prod.snd p).length = Prod.fst p) ∧
      bs.length = (lcs.map Prod.fst).sum :=
  encodeGo_chunks fmt.itemFmts msg.values (fmt.itemFmts.zip msg.values) 0 bs h

/-- C7 witness: the concatenation structure at a concrete encode. -/
theorem c7_encode_concatenation_witness :
    ∃ lcs : List (Nat × List Nat),
      MessageFormat.encodeChunks [ItemFormat.len 1] [ItemValue.len 5] 0
          (List.zip [ItemFormat.len 1] [ItemValue.len 5]) = .ok lcs ∧
      ([5] : List Nat) = (lcs.map Prod.snd).join ∧
      (∀ p ∈ lcs, (Prod.snd p).length = Prod.fst p) ∧
      ([5] : List Nat).length = (lcs.map Prod.fst).sum :=
  c7_encode_concatenation ⟨[.len 1]⟩ ⟨[.len 5]⟩ [5] (by decide)

/-- C8 (counterexample).  A value that passes both length validations but
whose kind does not match its field's kind is not written: the write arm
panics.  Here field 0 is `Len{len:1}` and the value is an empty string
(byte length 0 ≤ resolved length 1). -/
theorem c8_counterexample :
    MessageFormat.encode ⟨[.len 1]⟩ ⟨[.string []]⟩ = .crash ∧
    (ItemFormat.len 1).write_to_buf 1 (.string []) = .crash := by decide

/-- C8 (amended).  Encode-time value validation: for an integer value a
resolved length above the 8-byte container yields `LenTooLarge`; for a
string/bytes value (within the `usize` range) a resolved length below the
value's own byte length yields `ValueLenOutOfBound`; when both validations
pass, the value is written exactly when its kind matches the field's kind —
a mismatched kind panics.  `global_error` attaches the field index. -/
theorem c8_write_validation (f : ItemFormat) (l : Nat) (v : ItemValue) :
    (isIntValue v = true → 8 < l →
      f.write_to_buf l v = .error (.lenTooLarge 8 l)) ∧
    (isIntValue v = false → l ≤ USIZE_MAX → l < writeMinLen v →
      f.write_to_buf l v = .error (.valueLenOutOfBound l (writeMinLen v))) ∧
    (l ≤ writeMaxLen v → writeMinLen v ≤ l → kindMatches f v = true →
      ∃ bs, f.write_to_buf l v = .ok bs) ∧
    (l ≤ writeMaxLen v → writeMinLen v ≤ l → kindMatches f v = false →
      f.write_to_buf l v = .crash) ∧
    (∀ i : Nat,
      WriteError.global_error (.lenTooLarge 8 l) i =
        Error.lenTooLarge 8 i l ∧
      WriteError.global_error (.valueLenOutOfBound l (writeMinLen v)) i =
        Error.valueLenOutOfBound l i (writeMinLen v)) := by
  refine ⟨?_, ?_, ?_, ?_, fun i => ⟨rfl, rfl⟩⟩
  · intro hint hl
    cases v <;> simp only [isIntValue] at hint <;>
      first
      | (unfold ItemFormat.write_to_buf
         simp only [writeMaxLen]
         rw [if_pos hl])
      | cases hint
  · intro hint hle hmin
    cases v <;> simp only [isIntValue] at hint <;>
      first
      | (unfold ItemFormat.write_to_buf
         simp only [writeMaxLen, writeMinLen] at hmin ⊢
         rw [if_neg (by unfold USIZE_MAX at hle ⊢; omega), if_pos hmin])
      | cases hint
  · intro h1 h2 hk
    cases f <;> cases v <;>
      simp only [kindMatches] at hk <;>
      simp only [writeMaxLen, writeMinLen] at h1 h2 <;>
      first
      | exact ⟨_, by
          unfold ItemFormat.write_to_buf
          simp only [writeMaxLen, writeMinLen]
          rw [if_neg (by omega), if_neg (by omega)]
          rfl⟩
      | cases hk
  · intro h1 h2 hk
    cases f <;> cases v <;>
      simp only [kindMatches] at hk <;>
      simp only [writeMaxLen, writeMinLen] at h1 h2 <;>
      first
      | (unfold ItemFormat.write_to_buf
         simp only [writeMaxLen, writeMinLen]
         rw [if_neg (by omega), if_neg (by omega)]
         rfl)
      | cases hk

/-- C8 witness: the four write outcomes at concrete inputs. -/
theorem c8_write_validation_witness :
    (ItemFormat.varBytes 0).write_to_buf 100 (.uint 5) =
      .error (.lenTooLarge 8 100) ∧
    (ItemFormat.fixedString 1).write_to_buf 1 (.string [97, 98]) =
      .error (.valueLenOutOfBound 1 2) ∧
    (∃ bs, (ItemFormat.len 1).write_to_buf 1 (.len 3) = .ok bs) ∧
    (ItemFormat.len 1).write_to_buf 1 (.string []) = .crash := by
  refine ⟨?_, ?_, ?_, ?_⟩
  · exact (c8_write_validation (ItemFormat.varBytes 0) 100 (.uint 5)).1
      rfl (by omega)
  · exact (c8_write_validation (ItemFormat.fixedString 1) 1
      (.string [97, 98])).2.1 rfl (by decide) (by decide)
  · exact (c8_write_validation (ItemFormat.len 1) 1 (.len 3)).2.2.1
      (by decide) (by decide) rfl
  · exact (c8_write_validation (ItemFormat.len 1) 1 (.string [])).2.2.2.1
      (by decide) (by decide) rfl

/-- C10 (counterexample).  A message with fewer values (1) than the format
has fields (2) does not make encode return Ok: the processed field itself
can fail (here its width 9 exceeds the 8-byte maximum). -/
theorem c10_counterexample :
    MessageFormat.encode ⟨[.len 9, .len 1]⟩ ⟨[.len 0]⟩ =
      .error (.lenTooLarge 8 0 9) := by decide

/-- C10 (amended).  Encode pairs format fields with message values
positionally and stops at the shorter sequence: encoding is unchanged by
dropping the fields beyond the value count and the values beyond the field
count, so extra values are silently ignored and no error ever arises from
the count mismatch itself (though a processed field may still fail on its
own). -/
theorem c10_encode_zip_truncation (fmts : List ItemFormat)
    (vals : List ItemValue) :
    MessageFormat.encode ⟨fmts⟩ ⟨vals⟩ =
      MessageFormat.encode ⟨fmts.take vals.length⟩
        ⟨vals.take fmts.length⟩ := by
  unfold MessageFormat.encode
  simp only
  rw [zip_eq_zip_take fmts vals]
  apply encodeGo_congr
  · intro j hj
    simp only [List.length_zip, List.length_take, Nat.zero_add] at hj
    exact (List.get?_take (by omega)).symm
  · intro j hj
    simp only [List.length_zip, List.length_take, Nat.zero_add] at hj
    exact (List.get?_take (by omega)).symm

end SocketToolbox
